import Mathlib

/-!
Verification of the `sigma-llm-doc` pipeline: a shallow embedding of the
cache / validator / orchestrator / provider-retry core, together with
theorems settling the specification claims.

Python strings are modelled as Lean `String` (a wrapper around `List Char`);
most string work happens at the `List Char` level.  The SHA-256 digest used
by the fingerprint engine is modelled as an arbitrary function
`String → String` passed explicitly (the code only relies on the digest
being a function of the serialized text, never on its internal structure).
-/

namespace SigmaDoc

/-! ### Python string primitives

`isPySpace` models the characters stripped by Python's `str.strip()` /
`str.rstrip()` (ASCII and Latin-1 whitespace plus the Unicode line
separators; the rarely-seen other Unicode spaces are out of scope of the
model).  `isLineBreak` models the line boundaries recognised by
`str.splitlines()`. -/

def isPySpace (c : Char) : Bool :=
  c.toNat == 32 || c.toNat == 9 || c.toNat == 10 || c.toNat == 13 ||
  c.toNat == 11 || c.toNat == 12 || c.toNat == 28 || c.toNat == 29 ||
  c.toNat == 30 || c.toNat == 31 || c.toNat == 133 || c.toNat == 160 ||
  c.toNat == 0x2028 || c.toNat == 0x2029

def isLineBreak (c : Char) : Bool :=
  c.toNat == 10 || c.toNat == 13 || c.toNat == 11 || c.toNat == 12 ||
  c.toNat == 28 || c.toNat == 29 || c.toNat == 30 || c.toNat == 133 ||
  c.toNat == 0x2028 || c.toNat == 0x2029

/-- Python `str.rstrip()` on a character list: drop the trailing run of
whitespace characters. -/
def rstripL : List Char → List Char
  | [] => []
  | c :: cs =>
    match rstripL cs with
    | [] => if isPySpace c then [] else [c]
    | r => c :: r

/-- Python `str.lstrip()`. -/
def lstripL (l : List Char) : List Char := l.dropWhile isPySpace

/-- Python `str.strip()`. -/
def stripL (l : List Char) : List Char := rstripL (lstripL l)

/-- Python `str.strip()` at the `String` level. -/
def pyStrip (s : String) : String := ⟨stripL s.data⟩

/-- First half of Python `str.splitlines()`: the two-character boundary
`"\r\n"` counts as a single line boundary, so it is normalised to `'\n'`
before splitting. -/
def normCrlf : List Char → List Char
  | [] => []
  | '\r' :: '\n' :: rest => '\n' :: normCrlf rest
  | c :: cs => c :: normCrlf cs

/-- Second half of Python `str.splitlines()`: split at every (single
character) line boundary; a trailing boundary does not produce a trailing
empty line. -/
def splitlines1 : List Char → List (List Char)
  | [] => []
  | c :: cs =>
    if isLineBreak c then [] :: splitlines1 cs
    else
      match splitlines1 cs with
      | [] => [[c]]
      | p :: ps => (c :: p) :: ps

/-- Python `str.splitlines()`. -/
def splitlinesL (l : List Char) : List (List Char) := splitlines1 (normCrlf l)

/-- Python `"\n".join(lines)` on character lists. -/
def joinNL : List (List Char) → List Char
  | [] => []
  | [x] => x
  | x :: y :: ys => x ++ '\n' :: joinNL (y :: ys)

/-- Is `n` a prefix of `h`? (Bool-valued, for Python `str.startswith`.) -/
def isPrefixOfL : List Char → List Char → Bool
  | [], _ => true
  | _ :: _, [] => false
  | a :: as, b :: bs => a == b && isPrefixOfL as bs

/-- Python's substring test `needle in haystack`. -/
def containsL (needle : List Char) : List Char → Bool
  | [] => needle.isEmpty
  | c :: cs => isPrefixOfL needle (c :: cs) || containsL needle cs

/-! ### Validator (`validator.py`) -/

def REQUIRED_HEADERS : List String :=
  ["### Technical Context",
   "### Investigation Steps",
   "### Prioritization",
   "### Blind Spots and Assumptions"]

/-- `DISCLAIMER_PREFIX` in `validator.py` (renamed for the Lean development):
the disclaimer block-quote marker. -/
def disclaimerMarker : String := "> **Disclaimer:**"

def MINIMUM_LENGTH : Nat := 200

structure ValidationResult where
  passed : Bool
  errors : List String
deriving Repr, DecidableEq

/-- The regex `^\s*\*\s` tested at one position: a run of whitespace, then
`'*'`, then one whitespace character. -/
def starAfterWs : List Char → Bool
  | '*' :: c :: _ => isPySpace c
  | c :: cs => isPySpace c && starAfterWs cs
  | [] => false

/-- `re.MULTILINE` search of `^\s*\*\s`: try the pattern at the start of the
text and after every `'\n'`. -/
def hasStarBulletFrom : List Char → Bool
  | [] => false
  | '\n' :: cs => starAfterWs cs || hasStarBulletFrom cs
  | _ :: cs => hasStarBulletFrom cs

def hasStarBullet (l : List Char) : Bool :=
  starAfterWs l || hasStarBulletFrom l

/-- Inner loop of `_check_section_content`: scan the lines following a
header; a line starting (after strip) with `"### "` ends the section
without content; any other non-blank line (block quotes included) counts as
content. -/
def sectionHasContent : List (List Char) → Bool
  | [] => false
  | ln :: rest =>
    let s := stripL ln
    if isPrefixOfL "### ".data s then false
    else if !s.isEmpty && !isPrefixOfL ">".data s then true
    else if isPrefixOfL ">".data s then true
    else sectionHasContent rest

/-- `_check_section_content`: for every required header that occurs as a
stripped line, require at least one content line before the next header. -/
def sectionContentErrors (l : List Char) : List String :=
  let lines := splitlinesL (stripL l)
  REQUIRED_HEADERS.filterMap fun h =>
    match lines.findIdx? (fun ln => stripL ln = h.data) with
    | none => none
    | some idx =>
      if sectionHasContent (lines.drop (idx + 1)) then none
      else some ("Section '" ++ h ++ "' has no content after the header")

/-- `validate_response` from `validator.py`. -/
def validateResponse (text : String) : ValidationResult :=
  let l := text.data
  if l.isEmpty || (stripL l).isEmpty then
    ⟨false, ["Response is empty"]⟩
  else
    let errors :=
      (if (stripL l).length < MINIMUM_LENGTH then
        ["Response too short (" ++ toString (stripL l).length ++
         " chars, minimum " ++ toString MINIMUM_LENGTH ++ ")"]
       else []) ++
      (REQUIRED_HEADERS.filterMap fun h =>
        if containsL h.data l then none
        else some ("Missing required header: " ++ h)) ++
      (if containsL disclaimerMarker.data l then []
       else ["Missing disclaimer blockquote (> **Disclaimer:**)"]) ++
      (if hasStarBullet l then
        ["Found * bullet(s) — must use dash-prefixed (-) bullets only"]
       else []) ++
      (if containsL "```".data l then
        ["Found triple-backtick code block(s) — code blocks are not allowed"]
       else []) ++
      sectionContentErrors l
    ⟨errors.isEmpty, errors⟩

/-! ### Fingerprint engine and cache (`cache.py`) -/

/-- A parsed YAML rule: an ordered mapping from field names to (scalar)
values, as produced by `ruamel.yaml`. -/
abbrev Doc : Type := List (String × String)

/-- Canonical serialization of a rule (`_yaml.dump`): any fixed injective
rendering works for the claims; we use `key: value` lines. -/
def serializeDoc : Doc → String
  | [] => ""
  | (k, v) :: rest => k ++ ": " ++ v ++ "\n" ++ serializeDoc rest

/-- `del data_copy["note"]` after the `"note" in data_copy` test. -/
def eraseNote (d : Doc) : Doc := d.filter fun kv => kv.1 != "note"

/-- `rule_data["note"] = v` viewed as an operation producing a document that
differs from `d` only in its note field. -/
def setNote (d : Doc) (v : String) : Doc := eraseNote d ++ [("note", v)]

/-- `compute_rule_hash`: deep-copy, drop the `note` field, serialize, and
digest.  `h` stands for the SHA-256 hex digest. -/
def computeRuleHash (h : String → String) (d : Doc) : String :=
  h (serializeDoc (eraseNote d))

/-- `compute_prompt_hash`: digest of the raw prompt text. -/
def computePromptHash (h : String → String) (promptText : String) : String :=
  h promptText

def CACHE_VERSION : Nat := 1

structure RuleEntry where
  content_hash : String
  last_processed : String
deriving Repr, DecidableEq

structure CacheData where
  version : Nat
  prompt_hash : String
  rules : List (String × RuleEntry)
deriving Repr, DecidableEq

/-- The in-memory state set up by `Cache.__init__` before `_load`. -/
def freshCache : CacheData := ⟨CACHE_VERSION, "", []⟩

/-- Association-list lookup, modelling `dict.get` on the `rules` mapping. -/
def lookupRule : List (String × RuleEntry) → String → Option RuleEntry
  | [], _ => none
  | (q, e) :: rest, p => if q = p then some e else lookupRule rest p

/-- `dict` assignment `rules[p] = e`: replace in place or append. -/
def upsertRule : List (String × RuleEntry) → String → RuleEntry → List (String × RuleEntry)
  | [], p, e => [(p, e)]
  | (q, e') :: rest, p, e =>
    if q = p then (p, e) :: rest else (q, e') :: upsertRule rest p e

/-- `Cache.update_rule`: record a successful processing (`now` stands for
the ISO-8601 UTC timestamp taken at call time). -/
def updateRule (c : CacheData) (relativePath contentHash now : String) : CacheData :=
  { c with rules := upsertRule c.rules relativePath ⟨contentHash, now⟩ }

/-- `Cache.set_prompt_hash`. -/
def setPromptHash (c : CacheData) (h : String) : CacheData :=
  { c with prompt_hash := h }

/-- `Cache.save` (successful write): the cache file now holds the full
in-memory index. -/
def cacheSave (c : CacheData) : Option CacheData := some c

/-- `Cache._load` over the persisted state: missing file or version mismatch
degrade to the fresh index. -/
def cacheLoad (disk : Option CacheData) : CacheData :=
  match disk with
  | none => freshCache
  | some loaded => if loaded.version ≠ CACHE_VERSION then freshCache else loaded

/-- The observable state of the expected output file when `should_skip`
inspects it. -/
inductive OutputFileState where
  /-- `output_file.exists()` is false. -/
  | absent
  /-- Opening or YAML-parsing the output file raised. -/
  | readError
  /-- The output file loaded; `none` models `yaml.load` returning `None`
  for an empty document. -/
  | loaded (doc : Option Doc)
deriving Repr, DecidableEq

/-- `out_data.get("note", "") if out_data else ""`. -/
def docNote (d : Option Doc) : String :=
  match d with
  | none => ""
  | some m =>
    match m.find? (fun kv => kv.1 == "note") with
    | none => ""
    | some kv => kv.2

/-- `Cache.should_skip`. -/
def shouldSkip (data : CacheData) (relativePath contentHash promptHash : String)
    (outputFile : OutputFileState) : Bool :=
  if data.prompt_hash ≠ promptHash then false
  else
    match lookupRule data.rules relativePath with
    | none => false
    | some entry =>
      if entry.content_hash ≠ contentHash then false
      else
        match outputFile with
        | .absent => false
        | .readError => false
        | .loaded d =>
          let note := docNote d
          if note = "" ∨ pyStrip note = "" then false else true

/-! ### Orchestrator (`processor.py`) -/

/-- Modelled from the spec: `DISCLAIMER_TEXT`, the fixed disclaimer line
the orchestrator appends downstream of validation, is imported by
`processor.py` from `validator.py` but its definition is missing under
`src/` (only `DISCLAIMER_PREFIX` is present).  Per the spec it is a
block-quote disclaimer line, beginning with the disclaimer marker
`> **Disclaimer:**`; the full wording below follows the repository's test
fixture. -/
def DISCLAIMER_TEXT : String :=
  "> **Disclaimer:** This investigation guide was created using generative AI technology and has not been reviewed for its accuracy and relevance. While every effort has been made to ensure its quality, we recommend validating the content and adapting it to suit specific environments and operational needs. Please communicate any changes to the detection engineering team."

/-- `_clean_markdown` on a character list: strip the text, split into lines,
right-strip every line, collapse runs of blank lines, join with `'\n'`, and
guarantee a trailing newline. -/
def cleanLinesL : List (List Char) → Bool → List (List Char)
  | [], _ => []
  | ln :: rest, prevBlank =>
    let s := rstripL ln
    if s.isEmpty then
      if prevBlank then cleanLinesL rest true
      else [] :: cleanLinesL rest true
    else s :: cleanLinesL rest false

def cleanMarkdownL (l : List Char) : List Char :=
  let r := joinNL (cleanLinesL (splitlinesL (stripL l)) true)
  if r.getLast? = some '\n' then r else r ++ ['\n']

/-- `_clean_markdown` from `processor.py`. -/
def cleanMarkdown (s : String) : String := ⟨cleanMarkdownL s.data⟩

/-- Python `cleaned.rstrip("\n")`: strip trailing `'\n'` characters only. -/
def rstripNewlines : List Char → List Char
  | [] => []
  | c :: cs =>
    match rstripNewlines cs with
    | [] => if c = '\n' then [] else [c]
    | r => c :: r

/-- Lines 261–265 of `processor.py`: clean the accepted response and append
the disclaimer block when missing; the result is stored in the rule's
`note` field. -/
def finalNote (response : String) : String :=
  let cleaned := cleanMarkdown response
  if containsL DISCLAIMER_TEXT.data cleaned.data then cleaned
  else ⟨rstripNewlines cleaned.data⟩ ++ "\n\n" ++ DISCLAIMER_TEXT ++ "\n"

/-- Result of `yaml.load` on the input rule file. -/
inductive ParseResult where
  | parseError (msg : String)
  | emptyFile
  | parsed (d : Doc)
deriving Repr

/-- One backend call: either `provider.generate` raised, or it returned
text. -/
inductive GenOutcome where
  | genError (msg : String)
  | genText (t : String)
deriving Repr

/-- Result of the validation-retry loop (lines 220–259 of
`processor.py`). -/
inductive LoopRes where
  | apiFailed (msg : String)
  | valFailed
  | ok (text : String)
deriving Repr, DecidableEq

/-- The loop `for attempt in range(1, max_retries + 1)`: `rem + 1` attempts
remain, the current one is numbered `attempt`; `rem = 0` on the final
attempt (`attempt == max_retries`).  Falling off the loop with no accepted
response is the `valFailed` outcome. -/
def genLoopGo (gen : Nat → GenOutcome) : Nat → Nat → LoopRes
  | 0, _ => .valFailed
  | rem + 1, attempt =>
    match gen attempt with
    | .genError e => if rem = 0 then .apiFailed e else genLoopGo gen rem (attempt + 1)
    | .genText t =>
      if (validateResponse t).passed then .ok t
      else genLoopGo gen rem (attempt + 1)

def genLoop (gen : Nat → GenOutcome) (maxRetries : Nat) : LoopRes :=
  genLoopGo gen maxRetries 1

/-- The per-document inputs of `_process_single_rule`, with the outside
world (filesystem, backend) abstracted to its observable behaviour. -/
structure RuleFileModel where
  /-- `relative_str`: the cache key and mirror path. -/
  path : String
  /-- Outcome of loading the input rule file. -/
  parse : ParseResult
  /-- Backend outcome for each attempt number (1-indexed). -/
  gen : Nat → GenOutcome
  /-- `none`: the output write succeeds; `some e`: it raises `e`. -/
  writeError : Option String
  /-- State of the mirrored output file, as inspected by `should_skip`. -/
  output : OutputFileState

inductive DocOutcome where
  | failed (msg : String)
  | skipped
  | processed
deriving Repr, DecidableEq

/-- `_process_single_rule`: returns the per-document outcome and the cache
state after the call (`h` is the digest function, `now` the timestamp used
by `update_rule`). -/
def processSingleRule (h : String → String) (force : Bool) (promptHash : String)
    (maxRetries : Nat) (now : String) (cache : CacheData) (f : RuleFileModel) :
    DocOutcome × CacheData :=
  match f.parse with
  | .parseError e => (.failed (f.path ++ ": YAML parse error — " ++ e), cache)
  | .emptyFile => (.failed (f.path ++ ": Empty YAML file"), cache)
  | .parsed d =>
    let contentHash := computeRuleHash h d
    if !force && shouldSkip cache f.path contentHash promptHash f.output then
      (.skipped, cache)
    else
      match genLoop f.gen maxRetries with
      | .apiFailed e => (.failed (f.path ++ ": API error — " ++ e), cache)
      | .valFailed =>
        (.failed (f.path ++ ": Validation failed " ++ toString maxRetries ++ "x"), cache)
      | .ok _response =>
        match f.writeError with
        | some e => (.failed (f.path ++ ": Write error — " ++ e), cache)
        | none => (.processed, updateRule cache f.path contentHash now)

/-- `ProcessingResult` from `processor.py`. -/
structure ProcessingResult where
  total : Nat := 0
  processed : Nat := 0
  skipped : Nat := 0
  failed : Nat := 0
  failures : List String := []
deriving Repr, DecidableEq

/-- How `_process_single_rule` mutates the shared `result`: each outcome
bumps exactly one counter, failures also append one message. -/
def bumpResult (res : ProcessingResult) : DocOutcome → ProcessingResult
  | .failed msg => { res with failed := res.failed + 1, failures := res.failures ++ [msg] }
  | .skipped => { res with skipped := res.skipped + 1 }
  | .processed => { res with processed := res.processed + 1 }

/-- The document loop of `process_rules` (the cooperative tasks suspend only
at backend calls and mutate the shared result/cache one document at a time,
so the aggregate is a fold over the documents). -/
def processDocs (h : String → String) (force : Bool) (promptHash : String)
    (maxRetries : Nat) (now : String) :
    List RuleFileModel → ProcessingResult × CacheData → ProcessingResult × CacheData
  | [], acc => acc
  | f :: fs, acc =>
    let (o, cache') := processSingleRule h force promptHash maxRetries now acc.2 f
    processDocs h force promptHash maxRetries now fs (bumpResult acc.1 o, cache')

/-- `process_rules`: load the prompt, load the cache, discover the files,
abort (`SystemExit(1)`, modelled as `none`) when none were found, otherwise
process every document, then set the prompt hash and save.  Returns the run
report, the final in-memory cache and the saved cache file. -/
def processRules (h : String → String) (force : Bool) (promptText : String)
    (maxRetries : Nat) (now : String) (disk : Option CacheData)
    (files : List RuleFileModel) :
    Option (ProcessingResult × CacheData × Option CacheData) :=
  let promptHash := computePromptHash h promptText
  let cache0 := cacheLoad disk
  if files.length = 0 then none
  else
    let (res, cache) :=
      processDocs h force promptHash maxRetries now files
        ({ total := files.length }, cache0)
    let cacheFinal := setPromptHash cache promptHash
    some (res, cacheFinal, cacheSave cacheFinal)

/-- Run-level events of `process_rules`, in program order: prompt load
(lines 101–107), cache construction and load (line 115), file discovery
(line 118), then either the zero-documents abort (line 123) or the
per-document pipelines followed by `set_prompt_hash` (line 152) and
`save` (line 153). -/
inductive RunEvent where
  | promptLoad
  | cacheLoad
  | discover
  | abort
  | docProcessed (path : String)
  | cacheSetPrompt
  | cacheSave
deriving Repr, DecidableEq

def processRulesTrace (files : List String) : List RunEvent :=
  [.promptLoad, .cacheLoad, .discover] ++
    (if files.length = 0 then [.abort]
     else files.map .docProcessed ++ [.cacheSetPrompt, .cacheSave])

/-! ### Provider retry wrapper (`llm_provider.py`) -/

/-- Exceptions of the OpenAI SDK as classified by `OpenAIProvider.generate`;
`apiErr` carries `status_code`, which may be `None`. -/
inductive OpenAIErr where
  | rateLimit
  | timeoutErr
  | connectionErr
  | apiErr (status : Option Nat)
deriving Repr, DecidableEq

/-- Exceptions of the Anthropic SDK as classified by
`ClaudeProvider.generate`; `statusErr` always carries a status code. -/
inductive ClaudeErr where
  | rateLimit
  | timeoutErr
  | connectionErr
  | statusErr (status : Nat)
deriving Repr, DecidableEq

/-- One backend API call either succeeds with text or raises `ε`. -/
inductive ApiStep (ε : Type) where
  | success (text : String)
  | failure (e : ε)

/-- Result of a provider `generate` call. -/
inductive GenOutput (ε : Type) where
  /-- Returned `content.strip()`. -/
  | ok (text : String)
  /-- A non-retryable error was re-raised at once. -/
  | raisedImmediate (e : ε)
  /-- All attempts failed transiently; the last exception was re-raised. -/
  | raisedExhausted (e : ε)
  /-- `api_max_retries` was 0: the loop never ran and `raise last_exception`
  raised `None` (a `TypeError` in Python). -/
  | noAttempts
deriving Repr, DecidableEq

/-- Which exceptions the provider loops retry on: `RateLimitError`,
timeout/connection errors, and API errors whose status is truthy and
`>= 500` (Python `e.status_code and e.status_code >= 500`). -/
def openaiTransient : OpenAIErr → Bool
  | .rateLimit => true
  | .timeoutErr => true
  | .connectionErr => true
  | .apiErr none => false
  | .apiErr (some s) => s != 0 && 500 ≤ s

def claudeTransient : ClaudeErr → Bool
  | .rateLimit => true
  | .timeoutErr => true
  | .connectionErr => true
  | .statusErr s => 500 ≤ s

/-- The shared retry loop of both providers: `rem + 1` attempts remain, the
current one is `attempt`; a transient failure sleeps `2 ^ attempt` seconds
(collected in the returned list) and retries; a non-transient failure is
re-raised immediately; when attempts run out the last transient exception
is re-raised. -/
def generateRetryGo {ε : Type} (transient : ε → Bool) (api : Nat → ApiStep ε) :
    Nat → Nat → Option ε → GenOutput ε × List Nat
  | 0, _, last =>
    (match last with
     | none => .noAttempts
     | some e => .raisedExhausted e, [])
  | rem + 1, attempt, _ =>
    match api attempt with
    | .success t => (.ok (pyStrip t), [])
    | .failure e =>
      if transient e then
        let (r, ws) := generateRetryGo transient api rem (attempt + 1) (some e)
        (r, 2 ^ attempt :: ws)
      else (.raisedImmediate e, [])

def generateRetry {ε : Type} (transient : ε → Bool) (api : Nat → ApiStep ε)
    (apiMaxRetries : Nat) : GenOutput ε × List Nat :=
  generateRetryGo transient api apiMaxRetries 1 none

/-- `OpenAIProvider.generate`: result plus the backoff waits performed. -/
def openaiGenerate (api : Nat → ApiStep OpenAIErr) (apiMaxRetries : Nat) :
    GenOutput OpenAIErr × List Nat :=
  generateRetry openaiTransient api apiMaxRetries

/-- `ClaudeProvider.generate`: result plus the backoff waits performed. -/
def claudeGenerate (api : Nat → ApiStep ClaudeErr) (apiMaxRetries : Nat) :
    GenOutput ClaudeErr × List Nat :=
  generateRetry claudeTransient api apiMaxRetries

/-- The retry contract of spec §4.4, for one `generate` call `out` made
against backend behaviour `api` with limit `maxR`:
(i) if attempts `1..k-1` fail transiently and attempt `k ≤ maxR` succeeds,
the call returns the stripped text after backoffs `2^1, …, 2^(k-1)`;
(ii) if attempt `k` fails non-transiently after a transient prefix, that
error is re-raised at once with no further backoff;
(iii) if all `maxR` attempts fail transiently, the last error is re-raised
after backoffs `2^1, …, 2^maxR`. -/
def RetryContract {ε : Type} (transient : ε → Bool) (api : Nat → ApiStep ε)
    (maxR : Nat) (out : GenOutput ε × List Nat) : Prop :=
  (∀ k t, 1 ≤ k → k ≤ maxR →
    (∀ i, 1 ≤ i → i < k → ∃ e, api i = .failure e ∧ transient e = true) →
    api k = .success t →
    out = (.ok (pyStrip t), (List.range' 1 (k - 1)).map (2 ^ ·))) ∧
  (∀ k e, 1 ≤ k → k ≤ maxR →
    (∀ i, 1 ≤ i → i < k → ∃ e', api i = .failure e' ∧ transient e' = true) →
    api k = .failure e → transient e = false →
    out = (.raisedImmediate e, (List.range' 1 (k - 1)).map (2 ^ ·))) ∧
  (∀ eN, (∀ i, 1 ≤ i → i ≤ maxR → ∃ e, api i = .failure e ∧ transient e = true) →
    api maxR = .failure eN →
    out = (.raisedExhausted eN, (List.range' 1 maxR).map (2 ^ ·)))

/-! ### Fixture inputs (used by witnesses and counterexamples) -/

/-- A backend response that satisfies every validator rule. -/
def acceptedText : String :=
  "### Technical Context\nThis rule watches for suspicious use of credential dumping utilities on endpoints and maps the behaviour to known attacker tradecraft for context.\n\n### Investigation Steps\n- Review the process tree and confirm how the flagged process started.\n- Correlate the activity with authentication logs from the same host.\n\n### Prioritization\nTreat the alert as high severity in enterprise environments.\n\n### Blind Spots and Assumptions\nProcess creation logging must be enabled for this rule to fire.\n\n> **Disclaimer:** This guide was produced by an automated system and has not been reviewed.\n"

/-- The same response with the disclaimer line removed: every validator rule
passes except the disclaimer check. -/
def noDisclaimerText : String :=
  "### Technical Context\nThis rule watches for suspicious use of credential dumping utilities on endpoints and maps the behaviour to known attacker tradecraft for context.\n\n### Investigation Steps\n- Review the process tree and confirm how the flagged process started.\n- Correlate the activity with authentication logs from the same host.\n\n### Prioritization\nTreat the alert as high severity in enterprise environments.\n\n### Blind Spots and Assumptions\nProcess creation logging must be enabled for this rule to fire.\n"

/-- Backend behaviour for the C6 witness: one rate-limit, then success. -/
def apiOpenAIW : Nat → ApiStep OpenAIErr := fun i =>
  if i = 1 then .failure .rateLimit else .success "ok"

def apiClaudeW : Nat → ApiStep ClaudeErr := fun i =>
  if i = 1 then .failure (.statusErr 503) else .success "done"

/-- Concrete per-document inputs for the C7 witness: a parseable rule, a
backend returning a valid guide, and a failing output write. -/
def c7File : RuleFileModel :=
  { path := "r.yml"
    parse := .parsed [("title", "Test Rule")]
    gen := fun _ => .genText acceptedText
    writeError := some "disk full"
    output := .absent }

/-- Concrete per-document input for the C9 witness: a rule file whose YAML
fails to parse, so the run records one failure. -/
def c9File : RuleFileModel :=
  { path := "a.yml"
    parse := .parseError "bad"
    gen := fun _ => .genError "e"
    writeError := none
    output := .absent }

def c9Res : ProcessingResult :=
  { total := 1, processed := 0, skipped := 0, failed := 1,
    failures := ["a.yml: YAML parse error — bad"] }

/-! ### Helper lemmas -/

theorem isPrefixOfL_iff : ∀ a b : List Char, isPrefixOfL a b = true ↔ a <+: b := by
  intro a
  induction a with
  | nil => intro b; simp [isPrefixOfL]
  | cons x xs ih =>
    intro b
    cases b with
    | nil => simp [isPrefixOfL]
    | cons y ys =>
      simp only [isPrefixOfL, Bool.and_eq_true, beq_iff_eq, List.cons_prefix_cons, ih]

theorem containsL_iff : ∀ (n h : List Char), containsL n h = true ↔ n <:+: h := by
  intro n h
  induction h with
  | nil => simp [containsL, List.isEmpty_iff]
  | cons c cs ih =>
    simp only [containsL, Bool.or_eq_true, isPrefixOfL_iff, ih, List.infix_cons_iff]

theorem eraseNote_append (d₁ d₂ : Doc) :
    eraseNote (d₁ ++ d₂) = eraseNote d₁ ++ eraseNote d₂ :=
  List.filter_append d₁ d₂

theorem eraseNote_idem (d : Doc) : eraseNote (eraseNote d) = eraseNote d := by
  unfold eraseNote
  rw [List.filter_filter]
  simp

theorem eraseNote_setNote (d : Doc) (v : String) :
    eraseNote (setNote d v) = eraseNote d := by
  unfold setNote
  rw [eraseNote_append, eraseNote_idem]
  simp [eraseNote]

theorem lookup_upsert_self (rs : List (String × RuleEntry)) (p : String) (e : RuleEntry) :
    lookupRule (upsertRule rs p e) p = some e := by
  induction rs with
  | nil => simp [upsertRule, lookupRule]
  | cons qe rest ih =>
    obtain ⟨q, e'⟩ := qe
    by_cases hq : q = p
    · simp [upsertRule, hq, lookupRule]
    · simp [upsertRule, hq, lookupRule, ih]

theorem pyStrip_empty : pyStrip "" = "" := rfl

/-! ### Claims -/

/-- C1: `should_skip` returns true iff the stored prompt hash matches, an
entry for the path stores the current content hash, and the output file
loaded with a note that is non-blank after trimming; a missing file or a
read/parse error (and any other single failed condition) yields false. -/
theorem claim_C1_should_skip_iff (c : CacheData) (path ch ph : String)
    (out : OutputFileState) :
    shouldSkip c path ch ph out = true ↔
      (c.prompt_hash = ph ∧
       (∃ e, lookupRule c.rules path = some e ∧ e.content_hash = ch) ∧
       (∃ d, out = .loaded d ∧ pyStrip (docNote d) ≠ "")) := by
  unfold shouldSkip
  by_cases hp : c.prompt_hash = ph
  case neg =>
    rw [if_pos hp]
    simp [hp]
  case pos =>
    rw [if_neg (by simp [hp])]
    cases hL : lookupRule c.rules path with
    | none => simp
    | some entry =>
      dsimp only
      by_cases hc2 : entry.content_hash = ch
      case neg =>
        rw [if_pos hc2]
        constructor
        · intro h; exact (Bool.false_ne_true h).elim
        · rintro ⟨-, ⟨e, he, hch⟩, -⟩
          cases he
          exact absurd hch hc2
      case pos =>
        rw [if_neg (by simp [hc2])]
        cases out with
        | absent => simp
        | readError => simp
        | loaded d =>
          dsimp only
          by_cases hn : docNote d = "" ∨ pyStrip (docNote d) = ""
          case pos =>
            rw [if_pos hn]
            constructor
            · intro h; exact (Bool.false_ne_true h).elim
            · rintro ⟨-, -, d', hd', hne⟩
              cases hd'
              rcases hn with hn | hn
              · exact absurd (by rw [hn]; rfl) hne
              · exact absurd hn hne
          case neg =>
            rw [if_neg hn]
            push_neg at hn
            simp only [true_iff]
            exact ⟨hp, ⟨entry, rfl, hc2⟩, ⟨d, rfl, hn.2⟩⟩

/-- C2: the content fingerprint is invariant under adding, removing or
editing only the `note` field: documents that agree after `note`-erasure
hash identically, and `setNote` / `eraseNote` never change the hash. -/
theorem claim_C2_rule_hash_ignores_note :
    (∀ (h : String → String) (d d' : Doc), eraseNote d = eraseNote d' →
      computeRuleHash h d = computeRuleHash h d') ∧
    (∀ (h : String → String) (d : Doc) (v : String),
      computeRuleHash h (setNote d v) = computeRuleHash h d) ∧
    (∀ (h : String → String) (d : Doc),
      computeRuleHash h (eraseNote d) = computeRuleHash h d) := by
  refine ⟨?_, ?_, ?_⟩
  · intro h d d' heq
    unfold computeRuleHash
    rw [heq]
  · intro h d v
    unfold computeRuleHash
    rw [eraseNote_setNote]
  · intro h d
    unfold computeRuleHash
    rw [eraseNote_idem]

/-- C2 witness: two concrete documents differing only in the note field
hash identically. -/
theorem claim_C2_witness :
    computeRuleHash id [("title", "Test Rule"), ("note", "guide")]
      = computeRuleHash id [("title", "Test Rule")] :=
  claim_C2_rule_hash_ignores_note.1 id
    [("title", "Test Rule"), ("note", "guide")] [("title", "Test Rule")] rfl

/-- C3: whatever the backend returned, the note text produced by the
orchestrator (lines 261–265 of `processor.py`) contains the disclaimer
marker: it is either already inside the cleaned text or appended as part of
the fixed disclaimer block. -/
theorem claim_C3_note_contains_disclaimer (response : String) :
    containsL disclaimerMarker.data (finalNote response).data = true := by
  have hmark : disclaimerMarker.data <:+: DISCLAIMER_TEXT.data :=
    (containsL_iff _ _).mp rfl
  unfold finalNote
  by_cases hc : containsL DISCLAIMER_TEXT.data (cleanMarkdown response).data = true
  · rw [if_pos hc]
    rw [containsL_iff]
    exact hmark.trans ((containsL_iff _ _).mp hc)
  · rw [if_neg hc]
    rw [containsL_iff]
    refine hmark.trans ?_
    show DISCLAIMER_TEXT.data <:+:
      ((⟨rstripNewlines (cleanMarkdown response).data⟩ : String) ++ "\n\n"
        ++ DISCLAIMER_TEXT ++ "\n").data
    refine ⟨(rstripNewlines (cleanMarkdown response).data) ++ "\n\n".data, "\n".data, ?_⟩
    simp [String.data_append]

/-- C5 counterexample: with zero discovered documents the run does abort,
but a cache load has already happened before the abort — the claim's
"no cache load occurs" is false on the concrete empty input. -/
theorem claim_C5_counterexample :
    RunEvent.abort ∈ processRulesTrace [] ∧
      RunEvent.cacheLoad ∈ processRulesTrace [] := by
  constructor <;> decide

/-- C5 (amended): with zero discovered documents the run aborts after the
cache load but before any cache mutation or save; with at least one
document the abort never happens. -/
theorem claim_C5_amended (files : List String) :
    (files = [] →
      processRulesTrace files =
        [.promptLoad, .cacheLoad, .discover, .abort] ∧
      RunEvent.cacheSetPrompt ∉ processRulesTrace files ∧
      RunEvent.cacheSave ∉ processRulesTrace files) ∧
    (files ≠ [] → RunEvent.abort ∉ processRulesTrace files) := by
  constructor
  · rintro rfl
    refine ⟨rfl, ?_, ?_⟩ <;> decide
  · intro hne
    unfold processRulesTrace
    have hlen : files.length ≠ 0 := by
      simpa using fun h => hne (List.length_eq_zero.mp h)
    rw [if_neg hlen]
    intro hmem
    simp only [List.mem_append, List.mem_cons, List.mem_map] at hmem
    rcases hmem with (h | h | h | h) | (⟨p, _, h⟩ | h)
    all_goals simp_all

/-- C5 witness: the amended statement at concrete inputs `[]` and
`["a.yml"]`. -/
theorem claim_C5_witness :
    RunEvent.cacheSave ∉ processRulesTrace [] ∧
      RunEvent.abort ∉ processRulesTrace ["a.yml"] :=
  ⟨((claim_C5_amended []).1 rfl).2.2,
   (claim_C5_amended ["a.yml"]).2 (by simp)⟩

set_option maxRecDepth 40000 in
/-- C4 (code evidence): a text whose only validator violation is the
missing disclaimer marker is NOT accepted: `validate_response` returns
`passed = false` with exactly the disclaimer error, so a backend that
always returns such a text makes the validation-retry loop fail after
`max_retries` attempts instead of accepting it — the loop can fail purely
on disclaimer grounds, contradicting the claim (and the repository's own
test `test_missing_disclaimer_still_passes`). -/
theorem claim_C4_disclaimer_only_rejected :
    validateResponse noDisclaimerText =
      ⟨false, ["Missing disclaimer blockquote (> **Disclaimer:**)"]⟩ ∧
    genLoop (fun _ => .genText noDisclaimerText) 3 = .valFailed :=
  ⟨rfl, rfl⟩

/-- Success case of the provider retry loop, relative to the current
attempt number. -/
theorem generateRetryGo_success {ε : Type} (transient : ε → Bool)
    (api : Nat → ApiStep ε) :
    ∀ (rem attempt k : Nat) (last : Option ε) (t : String),
      attempt ≤ k → k < attempt + rem →
      (∀ i, attempt ≤ i → i < k → ∃ e, api i = .failure e ∧ transient e = true) →
      api k = .success t →
      generateRetryGo transient api rem attempt last =
        (.ok (pyStrip t), (List.range' attempt (k - attempt)).map (2 ^ ·)) := by
  intro rem
  induction rem with
  | zero => intro attempt k last t h1 h2 _ _; omega
  | succ r ih =>
    intro attempt k last t h1 h2 hpre hk
    rcases eq_or_lt_of_le h1 with heq | hlt
    · subst heq
      rw [Nat.sub_self]
      simp [generateRetryGo, hk, List.range']
    · obtain ⟨e, he, ht⟩ := hpre attempt le_rfl hlt
      have hrec := ih (attempt + 1) k (some e) t hlt (by omega)
        (fun i hi1 hi2 => hpre i (by omega) hi2) hk
      have hk1 : k - attempt = (k - (attempt + 1)) + 1 := by omega
      simp only [generateRetryGo, he, ht, hrec, if_true]
      rw [hk1, List.range'_succ]
      simp

/-- Non-transient case of the provider retry loop: the error is re-raised
with no further backoff. -/
theorem generateRetryGo_immediate {ε : Type} (transient : ε → Bool)
    (api : Nat → ApiStep ε) :
    ∀ (rem attempt k : Nat) (last : Option ε) (e : ε),
      attempt ≤ k → k < attempt + rem →
      (∀ i, attempt ≤ i → i < k → ∃ e', api i = .failure e' ∧ transient e' = true) →
      api k = .failure e → transient e = false →
      generateRetryGo transient api rem attempt last =
        (.raisedImmediate e, (List.range' attempt (k - attempt)).map (2 ^ ·)) := by
  intro rem
  induction rem with
  | zero => intro attempt k last e h1 h2 _ _ _; omega
  | succ r ih =>
    intro attempt k last e h1 h2 hpre hk hnt
    rcases eq_or_lt_of_le h1 with heq | hlt
    · subst heq
      rw [Nat.sub_self]
      simp [generateRetryGo, hk, hnt, List.range']
    · obtain ⟨e', he', ht'⟩ := hpre attempt le_rfl hlt
      have hrec := ih (attempt + 1) k (some e') e hlt (by omega)
        (fun i hi1 hi2 => hpre i (by omega) hi2) hk hnt
      have hk1 : k - attempt = (k - (attempt + 1)) + 1 := by omega
      simp only [generateRetryGo, he', ht', hrec, if_true]
      rw [hk1, List.range'_succ]
      simp

/-- Exhaustion case of the provider retry loop: every attempt failed
transiently and the last exception is re-raised after the full backoff
sequence. -/
theorem generateRetryGo_exhausted {ε : Type} (transient : ε → Bool)
    (api : Nat → ApiStep ε) :
    ∀ (rem attempt : Nat) (last : Option ε) (eN : ε),
      1 ≤ rem →
      (∀ i, attempt ≤ i → i < attempt + rem → ∃ e, api i = .failure e ∧ transient e = true) →
      api (attempt + rem - 1) = .failure eN →
      generateRetryGo transient api rem attempt last =
        (.raisedExhausted eN, (List.range' attempt rem).map (2 ^ ·)) := by
  intro rem
  induction rem with
  | zero => intro attempt last eN h1 _ _; omega
  | succ r ih =>
    intro attempt last eN _ hpre hlast
    rcases Nat.eq_zero_or_pos r with rfl | hr
    · have hl : api attempt = .failure eN := by simpa using hlast
      obtain ⟨e, he, ht⟩ := hpre attempt le_rfl (by omega)
      rw [hl] at he
      cases he
      simp [generateRetryGo, hl, ht, List.range']
    · obtain ⟨e, he, ht⟩ := hpre attempt le_rfl (by omega)
      have hlast' : api (attempt + 1 + r - 1) = .failure eN := by
        have : attempt + 1 + r - 1 = attempt + (r + 1) - 1 := by omega
        rw [this]; exact hlast
      have hrec := ih (attempt + 1) (some e) eN hr
        (fun i hi1 hi2 => hpre i (by omega) (by omega)) hlast'
      simp only [generateRetryGo, he, ht, hrec, if_true]
      rw [List.range'_succ]
      simp

/-- The retry contract holds for the shared retry loop for any transient
classification. -/
theorem retryContract_generateRetry {ε : Type} (transient : ε → Bool)
    (api : Nat → ApiStep ε) (maxR : Nat) (h1 : 1 ≤ maxR) :
    RetryContract transient api maxR (generateRetry transient api maxR) := by
  unfold generateRetry RetryContract
  refine ⟨?_, ?_, ?_⟩
  · intro k t hk1 hk2 hpre hk
    exact generateRetryGo_success transient api maxR 1 k none t hk1 (by omega) hpre hk
  · intro k e hk1 hk2 hpre hk hnt
    exact generateRetryGo_immediate transient api maxR 1 k none e hk1 (by omega) hpre hk hnt
  · intro eN hall hlast
    have := generateRetryGo_exhausted transient api maxR 1 none eN h1
      (fun i hi1 hi2 => hall i hi1 (by omega)) (by simpa using hlast)
    exact this

/-- C6: both provider `generate` loops retry transient failures
(rate-limit, timeout, connection, 5xx) with backoff `2 ^ attempt` starting
at attempt 1, re-raise non-transient errors immediately without retry, and
after exhausting `api_max_retries` transient failures re-raise the last
one. -/
theorem claim_C6_provider_retry (maxR : Nat) (h1 : 1 ≤ maxR)
    (apiO : Nat → ApiStep OpenAIErr) (apiC : Nat → ApiStep ClaudeErr) :
    RetryContract openaiTransient apiO maxR (openaiGenerate apiO maxR) ∧
      RetryContract claudeTransient apiC maxR (claudeGenerate apiC maxR) :=
  ⟨retryContract_generateRetry openaiTransient apiO maxR h1,
   retryContract_generateRetry claudeTransient apiC maxR h1⟩

/-- C6 witness: with `api_max_retries = 2` and a transient first attempt,
both providers back off 2 seconds and return the second attempt's text. -/
theorem claim_C6_witness :
    openaiGenerate apiOpenAIW 2 = (.ok "ok", [2]) ∧
      claudeGenerate apiClaudeW 2 = (.ok "done", [2]) := by
  constructor
  · have h := (claim_C6_provider_retry 2 (by decide) apiOpenAIW apiClaudeW).1.1 2 "ok"
      (by decide) (by decide)
      (fun i hi1 hi2 => by
        have hie : i = 1 := by omega
        subst hie
        exact ⟨.rateLimit, rfl, rfl⟩)
      rfl
    exact h.trans (by rfl)
  · have h := (claim_C6_provider_retry 2 (by decide) apiOpenAIW apiClaudeW).2.1 2 "done"
      (by decide) (by decide)
      (fun i hi1 hi2 => by
        have hie : i = 1 := by omega
        subst hie
        exact ⟨.statusErr 503, rfl, rfl⟩)
      rfl
    exact h.trans (by rfl)

/-- C7: when the output write fails after an accepted generation, the
document is recorded as a write failure and the cache is returned exactly
as it was before the attempt (no entry created or updated). -/
theorem claim_C7_write_failure_keeps_cache
    (h : String → String) (force : Bool) (ph : String) (maxR : Nat)
    (now : String) (cache : CacheData) (f : RuleFileModel) (d : Doc)
    (e r : String)
    (hparse : f.parse = .parsed d)
    (hnoskip : (!force && shouldSkip cache f.path (computeRuleHash h d) ph f.output) = false)
    (hgen : genLoop f.gen maxR = .ok r)
    (hwrite : f.writeError = some e) :
    processSingleRule h force ph maxR now cache f =
      (.failed (f.path ++ ": Write error — " ++ e), cache) := by
  unfold processSingleRule
  rw [hparse]
  dsimp only
  rw [if_neg (by rw [hnoskip]; exact Bool.false_ne_true), hgen]
  dsimp only
  rw [hwrite]

set_option maxRecDepth 40000 in
/-- C7 witness: the write-failure behaviour at concrete inputs. -/
theorem claim_C7_witness :
    processSingleRule id false "p" 3 "t0" freshCache c7File =
      (.failed "r.yml: Write error — disk full", freshCache) :=
  claim_C7_write_failure_keeps_cache id false "p" 3 "t0" freshCache c7File
    [("title", "Test Rule")] "disk full" acceptedText rfl rfl rfl rfl

theorem bumpResult_total (res : ProcessingResult) (o : DocOutcome) :
    (bumpResult res o).total = res.total := by
  cases o <;> rfl

theorem bumpResult_sum (res : ProcessingResult) (o : DocOutcome) :
    (bumpResult res o).processed + (bumpResult res o).skipped + (bumpResult res o).failed
      = res.processed + res.skipped + res.failed + 1 := by
  cases o <;> simp [bumpResult] <;> omega

theorem bumpResult_failures (res : ProcessingResult) (o : DocOutcome) :
    (bumpResult res o).failures.length + res.failed
      = (bumpResult res o).failed + res.failures.length := by
  cases o <;> simp [bumpResult] <;> omega

/-- Counter invariants of the document loop: the total is untouched, the
three counters gain exactly one unit per document, and the failure-list
length tracks the failed counter. -/
theorem processDocs_spec (h : String → String) (force : Bool) (ph : String)
    (maxR : Nat) (now : String) :
    ∀ (files : List RuleFileModel) (accR : ProcessingResult) (accC : CacheData),
      (processDocs h force ph maxR now files (accR, accC)).1.total = accR.total ∧
      (processDocs h force ph maxR now files (accR, accC)).1.processed +
          (processDocs h force ph maxR now files (accR, accC)).1.skipped +
          (processDocs h force ph maxR now files (accR, accC)).1.failed =
        accR.processed + accR.skipped + accR.failed + files.length ∧
      (processDocs h force ph maxR now files (accR, accC)).1.failures.length + accR.failed =
        (processDocs h force ph maxR now files (accR, accC)).1.failed + accR.failures.length := by
  intro files
  induction files with
  | nil =>
    intro accR accC
    refine ⟨rfl, ?_, ?_⟩ <;> (simp only [processDocs, List.length_nil]; omega)
  | cons f fs ih =>
    intro accR accC
    rcases hps : processSingleRule h force ph maxR now accC f with ⟨o, c'⟩
    have hred : processDocs h force ph maxR now (f :: fs) (accR, accC) =
        processDocs h force ph maxR now fs (bumpResult accR o, c') := by
      simp [processDocs, hps]
    rw [hred]
    have hrec := ih (bumpResult accR o) c'
    refine ⟨?_, ?_, ?_⟩
    · rw [hrec.1]; exact bumpResult_total accR o
    · have h1 := hrec.2.1
      have h2 := bumpResult_sum accR o
      have h3 : (f :: fs).length = fs.length + 1 := rfl
      omega
    · have h1 := hrec.2.2
      have h2 := bumpResult_failures accR o
      omega

/-- C9: a completed run (at least one document discovered, so no
`SystemExit`) satisfies `processed + skipped + failed = total` and the
failure list has exactly `failed` entries. -/
theorem claim_C9_counters (h : String → String) (force : Bool) (promptText : String)
    (maxR : Nat) (now : String) (disk : Option CacheData)
    (f : RuleFileModel) (fs : List RuleFileModel)
    (res : ProcessingResult) (cfin : CacheData) (saved : Option CacheData)
    (hrun : processRules h force promptText maxR now disk (f :: fs) =
      some (res, cfin, saved)) :
    res.processed + res.skipped + res.failed = res.total ∧
      res.failures.length = res.failed := by
  unfold processRules at hrun
  rw [if_neg (by simp)] at hrun
  rcases hps : processDocs h force (computePromptHash h promptText) maxR now (f :: fs)
      ({ total := (f :: fs).length }, cacheLoad disk) with ⟨res', cache'⟩
  rw [hps] at hrun
  simp only [Option.some.injEq, Prod.mk.injEq] at hrun
  obtain ⟨hres, -⟩ := hrun
  subst hres
  have hspec := processDocs_spec h force (computePromptHash h promptText) maxR now
    (f :: fs) { total := (f :: fs).length } (cacheLoad disk)
  rw [hps] at hspec
  have h1 : res'.total = (f :: fs).length := hspec.1
  have h2 : res'.processed + res'.skipped + res'.failed = 0 + 0 + 0 + (f :: fs).length :=
    hspec.2.1
  have h3 : res'.failures.length + 0 = res'.failed + 0 := hspec.2.2
  constructor
  · omega
  · omega

/-- C9 witness: the counter invariant at a concrete one-document run. -/
theorem claim_C9_witness :
    c9Res.processed + c9Res.skipped + c9Res.failed = c9Res.total ∧
      c9Res.failures.length = c9Res.failed :=
  claim_C9_counters id false "prompt" 1 "t0" none c9File []
    c9Res ⟨CACHE_VERSION, "prompt", []⟩ (some ⟨CACHE_VERSION, "prompt", []⟩) rfl

/-- C8: after `set_prompt_hash h`, `update_rule p ch`, `save`, a freshly
constructed `Cache` over the same directory loads an index whose prompt
hash is `h` and whose entry for `p` carries content hash `ch`. -/
theorem claim_C8_cache_round_trip (c0 : CacheData) (h p ch now : String)
    (hv : c0.version = CACHE_VERSION) :
    let c2 := cacheLoad (cacheSave (updateRule (setPromptHash c0 h) p ch now))
    c2.prompt_hash = h ∧
      ∃ e, lookupRule c2.rules p = some e ∧ e.content_hash = ch := by
  intro c2
  have hver : (updateRule (setPromptHash c0 h) p ch now).version = CACHE_VERSION := by
    simpa [updateRule, setPromptHash] using hv
  have hc2 : c2 = updateRule (setPromptHash c0 h) p ch now := by
    simp [c2, cacheLoad, cacheSave, hver]
  rw [hc2]
  refine ⟨rfl, ⟨⟨ch, now⟩, ?_, rfl⟩⟩
  simp [updateRule, setPromptHash, lookup_upsert_self]

/-- C8 witness: the round trip at concrete values starting from a fresh
cache. -/
theorem claim_C8_witness :
    (cacheLoad (cacheSave (updateRule (setPromptHash freshCache "abc123")
        "rules/test.yml" "hash_value" "t0"))).prompt_hash = "abc123" ∧
      ∃ e, lookupRule (cacheLoad (cacheSave (updateRule (setPromptHash freshCache "abc123")
        "rules/test.yml" "hash_value" "t0"))).rules "rules/test.yml" = some e ∧
        e.content_hash = "hash_value" :=
  claim_C8_cache_round_trip freshCache "abc123" "rules/test.yml" "hash_value" "t0" rfl

/-! ### Lemmas about the Python string primitives (towards C10) -/

theorem isPySpace_of_isLineBreak {c : Char} (h : isLineBreak c = true) :
    isPySpace c = true := by
  unfold isLineBreak at h
  unfold isPySpace
  simp only [Bool.or_eq_true] at h ⊢
  tauto

theorem isLineBreak_newline : isLineBreak '\n' = true := by decide

theorem isPySpace_newline : isPySpace '\n' = true := by decide

theorem ne_newline_of_not_space {c : Char} (h : isPySpace c = false) : c ≠ '\n' := by
  intro hc; subst hc; simp [isPySpace_newline] at h

theorem rstripL_last_not_space :
    ∀ (l : List Char) (d : Char), (rstripL l).getLast? = some d → isPySpace d = false := by
  intro l
  induction l with
  | nil => intro d hd; simp [rstripL] at hd
  | cons c cs ih =>
    intro d hd
    unfold rstripL at hd
    cases hr : rstripL cs with
    | nil =>
      rw [hr] at hd
      by_cases hc : isPySpace c
      · simp [hc] at hd
      · simp [hc] at hd
        subst hd
        simpa using hc
    | cons a r =>
      rw [hr] at hd
      rw [List.getLast?_cons_cons] at hd
      rw [← hr] at hd
      exact ih d hd

theorem rstripL_eq_self_of_last :
    ∀ (l : List Char) (d : Char), l.getLast? = some d → isPySpace d = false →
      rstripL l = l := by
  intro l
  induction l with
  | nil => intro d hd _; simp at hd
  | cons c cs ih =>
    intro d hd hsp
    cases cs with
    | nil =>
      simp at hd
      subst hd
      simp [rstripL, hsp]
    | cons c2 cs2 =>
      rw [List.getLast?_cons_cons] at hd
      have hcs : rstripL (c2 :: cs2) = c2 :: cs2 := ih d hd hsp
      unfold rstripL
      rw [hcs]

theorem rstripL_idem (l : List Char) : rstripL (rstripL l) = rstripL l := by
  cases hr : rstripL l with
  | nil => rfl
  | cons a r =>
    have h1 : (rstripL l).getLast?.isSome = true := by
      rw [hr]; exact List.getLast?_isSome.mpr (by simp)
    obtain ⟨d, hd⟩ := Option.isSome_iff_exists.mp h1
    have hns := rstripL_last_not_space l d hd
    rw [← hr]
    exact rstripL_eq_self_of_last (rstripL l) d hd hns

theorem rstripL_cons_ne_nil_of_not_space {c : Char} (cs : List Char)
    (h : isPySpace c = false) : rstripL (c :: cs) ≠ [] := by
  unfold rstripL
  cases hr : rstripL cs with
  | nil => simp [h]
  | cons a r => simp

theorem rstripL_cons_of_not_space {c : Char} (cs : List Char)
    (h : isPySpace c = false) : ∃ t, rstripL (c :: cs) = c :: t := by
  unfold rstripL
  cases hr : rstripL cs with
  | nil => exact ⟨[], by simp [h]⟩
  | cons a r => exact ⟨a :: r, by simp⟩

theorem mem_rstripL : ∀ (l : List Char) (c : Char), c ∈ rstripL l → c ∈ l := by
  intro l
  induction l with
  | nil => intro c hc; simp [rstripL] at hc
  | cons a as ih =>
    intro c hc
    unfold rstripL at hc
    cases hr : rstripL as with
    | nil =>
      rw [hr] at hc
      by_cases ha : isPySpace a
      · simp [ha] at hc
      · simp [ha] at hc
        simp [hc]
    | cons b r =>
      rw [hr] at hc
      rcases List.mem_cons.mp hc with hc | hc
      · simp [hc]
      · exact List.mem_cons_of_mem a (ih c (hr ▸ hc))

theorem rstripL_append_space :
    ∀ (l : List Char) (d : Char), isPySpace d = true →
      rstripL (l ++ [d]) = rstripL l := by
  intro l
  induction l with
  | nil => intro d hd; simp [rstripL, hd]
  | cons c cs ih =>
    intro d hd
    show rstripL (c :: (cs ++ [d])) = rstripL (c :: cs)
    unfold rstripL
    rw [ih d hd]

theorem dropWhile_head_not_space (l : List Char) (h : l.dropWhile isPySpace ≠ []) :
    ∃ c t, l.dropWhile isPySpace = c :: t ∧ isPySpace c = false := by
  induction l with
  | nil => simp at h
  | cons a as ih =>
    by_cases ha : isPySpace a
    · rw [List.dropWhile_cons, if_pos ha] at h ⊢
      exact ih h
    · rw [List.dropWhile_cons, if_neg ha]
      exact ⟨a, as, rfl, by simpa using ha⟩

theorem stripL_head_not_space (l : List Char) (h : stripL l ≠ []) :
    ∃ c t, stripL l = c :: t ∧ isPySpace c = false := by
  unfold stripL lstripL at h ⊢
  have hdw : l.dropWhile isPySpace ≠ [] := by
    intro hnil
    rw [hnil] at h
    exact h rfl
  obtain ⟨c, t, hct, hc⟩ := dropWhile_head_not_space l hdw
  rw [hct] at h ⊢
  obtain ⟨t₂, ht₂⟩ := rstripL_cons_of_not_space t hc
  exact ⟨c, t₂, ht₂, hc⟩

theorem stripL_last_not_space (l : List Char) (h : stripL l ≠ []) :
    ∃ d, (stripL l).getLast? = some d ∧ isPySpace d = false := by
  have hsome : (stripL l).getLast?.isSome = true := List.getLast?_isSome.mpr h
  obtain ⟨d, hd⟩ := Option.isSome_iff_exists.mp hsome
  exact ⟨d, hd, rstripL_last_not_space (lstripL l) d hd⟩

theorem getLast?_cons_of_ne_nil {α : Type} {l : List α} (a : α) (h : l ≠ []) :
    (a :: l).getLast? = l.getLast? := by
  cases l with
  | nil => exact absurd rfl h
  | cons b t => exact List.getLast?_cons_cons

/-! ### Lemmas about `splitlinesL` -/

theorem ne_cr_of_not_break {c : Char} (h : isLineBreak c = false) : c ≠ '\r' := by
  intro hc; subst hc; simp [isLineBreak] at h

theorem normCrlf_cons_ne_cr {a : Char} (t : List Char) (ha : a ≠ '\r') :
    normCrlf (a :: t) = a :: normCrlf t := by
  rw [normCrlf.eq_def]
  split
  · rename_i heq; exact absurd heq (by simp)
  · rename_i rest heq
    rw [List.cons.injEq] at heq
    exact absurd heq.1 ha
  · rename_i c cs hno heq
    rw [List.cons.injEq] at heq
    rw [heq.1, heq.2]

theorem normCrlf_cons_not_crlf {c : Char} (cs : List Char)
    (h : ∀ rest, c = '\r' → cs = '\n' :: rest → False) :
    normCrlf (c :: cs) = c :: normCrlf cs := by
  rw [normCrlf.eq_def]
  split
  · rename_i heq; exact absurd heq (by simp)
  · rename_i rest heq
    rw [List.cons.injEq] at heq
    exact (h rest heq.1 heq.2).elim
  · rename_i c' cs' hno heq
    rw [List.cons.injEq] at heq
    rw [heq.1, heq.2]

theorem normCrlf_crlf (rest : List Char) :
    normCrlf ('\r' :: '\n' :: rest) = '\n' :: normCrlf rest := by
  rw [normCrlf.eq_def]
  rfl

theorem normCrlf_ne_nil : ∀ l : List Char, l ≠ [] → normCrlf l ≠ [] := by
  intro l
  induction l using normCrlf.induct with
  | case1 => intro h; exact absurd rfl h
  | case2 rest ih => intro _; rw [normCrlf_crlf]; simp
  | case3 c cs hno ih =>
    intro _
    rw [normCrlf_cons_not_crlf cs fun rest h1 h2 => hno rest h1 h2]
    simp

theorem normCrlf_no_cr :
    ∀ l : List Char, (∀ c ∈ l, c ≠ '\r') → normCrlf l = l := by
  intro l
  induction l with
  | nil => intro _; rfl
  | cons a t ih =>
    intro h
    rw [normCrlf_cons_ne_cr t (h a (List.mem_cons_self a t)),
      ih (fun c hc => h c (List.mem_cons_of_mem a hc))]

theorem normCrlf_append_newline :
    ∀ (x r : List Char), (∀ c ∈ x, isLineBreak c = false) →
      normCrlf (x ++ '\n' :: r) = x ++ '\n' :: normCrlf r := by
  intro x
  induction x with
  | nil =>
    intro r _
    exact normCrlf_cons_ne_cr r (by decide)
  | cons a x' ih =>
    intro r hx
    have ha : a ≠ '\r' := ne_cr_of_not_break (hx a (List.mem_cons_self a x'))
    rw [List.cons_append, normCrlf_cons_ne_cr _ ha,
      ih r (fun c hc => hx c (List.mem_cons_of_mem a hc)), List.cons_append]

theorem normCrlf_getLast :
    ∀ (l : List Char) (d : Char), l.getLast? = some d → isLineBreak d = false →
      (normCrlf l).getLast? = some d := by
  intro l
  induction l using normCrlf.induct with
  | case1 => intro d hd _; simp at hd
  | case2 rest ih =>
    intro d hd hnb
    cases rest with
    | nil =>
      simp only [List.getLast?_cons_cons, List.getLast?_singleton, Option.some.injEq] at hd
      subst hd
      exact absurd hnb (by decide)
    | cons r rs =>
      rw [List.getLast?_cons_cons, List.getLast?_cons_cons] at hd
      have hrec := ih d hd hnb
      have hne : normCrlf (r :: rs) ≠ [] := by
        intro h0
        rw [h0] at hrec
        simp at hrec
      rw [normCrlf_crlf, getLast?_cons_of_ne_nil _ hne]
      exact hrec
  | case3 c cs hno ih =>
    intro d hd hnb
    rw [normCrlf_cons_not_crlf cs fun rest h1 h2 => hno rest h1 h2]
    cases cs with
    | nil =>
      simp only [List.getLast?_singleton, Option.some.injEq] at hd
      subst hd
      rfl
    | cons a as =>
      rw [List.getLast?_cons_cons] at hd
      have hrec := ih d hd hnb
      have hne : normCrlf (a :: as) ≠ [] := by
        intro h0
        rw [h0] at hrec
        simp at hrec
      rw [getLast?_cons_of_ne_nil _ hne]
      exact hrec

theorem mem_normCrlf : ∀ (l : List Char) (c : Char), c ∈ normCrlf l → c ∈ l := by
  intro l
  induction l using normCrlf.induct with
  | case1 => intro c hc; simp [normCrlf] at hc
  | case2 rest ih =>
    intro c hc
    rw [normCrlf_crlf] at hc
    rcases List.mem_cons.mp hc with rfl | hc
    · simp
    · exact List.mem_cons_of_mem _ (List.mem_cons_of_mem _ (ih c hc))
  | case3 c cs hno ih =>
    intro c' hc'
    rw [normCrlf_cons_not_crlf cs fun rest h1 h2 => hno rest h1 h2] at hc'
    rcases List.mem_cons.mp hc' with rfl | hc'
    · simp
    · exact List.mem_cons_of_mem _ (ih c' hc')

theorem splitlines1_break {c : Char} (cs : List Char) (hb : isLineBreak c = true) :
    splitlines1 (c :: cs) = [] :: splitlines1 cs := by
  rw [splitlines1.eq_def]
  split
  · rename_i heq; exact absurd heq (by simp)
  · rename_i c' cs' heq
    rw [List.cons.injEq] at heq
    obtain ⟨rfl, rfl⟩ := heq
    rw [if_pos hb]

theorem splitlines1_not_break_nil {c : Char} (cs : List Char)
    (hnb : isLineBreak c = false) (hs : splitlines1 cs = []) :
    splitlines1 (c :: cs) = [[c]] := by
  rw [splitlines1.eq_def]
  split
  · rename_i heq; exact absurd heq (by simp)
  · rename_i c' cs' heq
    rw [List.cons.injEq] at heq
    obtain ⟨rfl, rfl⟩ := heq
    rw [if_neg (by simp [hnb]), hs]

theorem splitlines1_not_break_cons {c : Char} (cs : List Char) (p : List Char)
    (ps : List (List Char)) (hnb : isLineBreak c = false)
    (hs : splitlines1 cs = p :: ps) :
    splitlines1 (c :: cs) = (c :: p) :: ps := by
  rw [splitlines1.eq_def]
  split
  · rename_i heq; exact absurd heq (by simp)
  · rename_i c' cs' heq
    rw [List.cons.injEq] at heq
    obtain ⟨rfl, rfl⟩ := heq
    rw [if_neg (by simp [hnb]), hs]

theorem splitlines1_ne_nil : ∀ l : List Char, l ≠ [] → splitlines1 l ≠ [] := by
  intro l
  induction l with
  | nil => intro h; exact absurd rfl h
  | cons c cs ih =>
    intro _
    by_cases hb : isLineBreak c
    · rw [splitlines1_break cs hb]; simp
    · cases hs : splitlines1 cs with
      | nil => rw [splitlines1_not_break_nil cs (by simpa using hb) hs]; simp
      | cons p ps => rw [splitlines1_not_break_cons cs p ps (by simpa using hb) hs]; simp

theorem splitlines1_pieces_no_break :
    ∀ l : List Char, ∀ p ∈ splitlines1 l, ∀ c ∈ p, isLineBreak c = false := by
  intro l
  induction l with
  | nil => intro p hp; simp [splitlines1] at hp
  | cons c cs ih =>
    intro p hp c' hc'
    by_cases hb : isLineBreak c
    · rw [splitlines1_break cs hb] at hp
      rcases List.mem_cons.mp hp with rfl | hp
      · simp at hc'
      · exact ih p hp c' hc'
    · cases hs : splitlines1 cs with
      | nil =>
        rw [splitlines1_not_break_nil cs (by simpa using hb) hs] at hp
        rcases List.mem_singleton.mp hp with rfl
        rcases List.mem_singleton.mp hc' with rfl
        simpa using hb
      | cons q qs =>
        rw [splitlines1_not_break_cons cs q qs (by simpa using hb) hs] at hp
        rcases List.mem_cons.mp hp with rfl | hp
        · rcases List.mem_cons.mp hc' with rfl | hmem
          · simpa using hb
          · exact ih q (hs ▸ List.mem_cons_self q qs) c' hmem
        · exact ih p (hs ▸ List.mem_cons_of_mem q hp) c' hc'

theorem splitlines1_append_newline :
    ∀ (x r : List Char), (∀ c ∈ x, isLineBreak c = false) →
      splitlines1 (x ++ '\n' :: r) = x :: splitlines1 r := by
  intro x
  induction x with
  | nil => intro r _; exact splitlines1_break r (by decide)
  | cons a x' ih =>
    intro r hx
    have ha : isLineBreak a = false := hx a (List.mem_cons_self a x')
    have hrec := ih r (fun c hc => hx c (List.mem_cons_of_mem a hc))
    rw [List.cons_append]
    exact splitlines1_not_break_cons _ x' (splitlines1 r) ha hrec

theorem splitlines1_no_break_self :
    ∀ x : List Char, x ≠ [] → (∀ c ∈ x, isLineBreak c = false) →
      splitlines1 x = [x] := by
  intro x
  induction x with
  | nil => intro h _; exact absurd rfl h
  | cons a x' ih =>
    intro _ hx
    have ha : isLineBreak a = false := hx a (List.mem_cons_self a x')
    cases x' with
    | nil => exact splitlines1_not_break_nil [] ha rfl
    | cons b x'' =>
      have hrec := ih (by simp) (fun c hc => hx c (List.mem_cons_of_mem a hc))
      exact splitlines1_not_break_cons _ (b :: x'') [] ha hrec

theorem splitlines1_getLast :
    ∀ (l : List Char) (d : Char), l.getLast? = some d → isLineBreak d = false →
      ∃ piece, (splitlines1 l).getLast? = some piece ∧ piece.getLast? = some d := by
  intro l
  induction l with
  | nil => intro d hd _; simp at hd
  | cons c cs ih =>
    intro d hd hnb
    cases cs with
    | nil =>
      simp only [List.getLast?_singleton, Option.some.injEq] at hd
      subst hd
      refine ⟨[c], ?_, rfl⟩
      rw [splitlines1_not_break_nil [] hnb rfl]
      rfl
    | cons a as =>
      rw [List.getLast?_cons_cons] at hd
      obtain ⟨piece, hp1, hp2⟩ := ih d hd hnb
      have hne : splitlines1 (a :: as) ≠ [] := splitlines1_ne_nil (a :: as) (by simp)
      by_cases hb : isLineBreak c
      · refine ⟨piece, ?_, hp2⟩
        rw [splitlines1_break (a :: as) hb, getLast?_cons_of_ne_nil _ hne]
        exact hp1
      · cases hs : splitlines1 (a :: as) with
        | nil => exact absurd hs hne
        | cons q qs =>
          have hred := splitlines1_not_break_cons (a :: as) q qs (by simpa using hb) hs
          rw [hs] at hp1
          cases qs with
          | nil =>
            simp only [List.getLast?_singleton, Option.some.injEq] at hp1
            subst hp1
            have hqne : q ≠ [] := by
              intro h0
              rw [h0] at hp2
              simp at hp2
            refine ⟨c :: q, ?_, ?_⟩
            · rw [hred]; rfl
            · rw [getLast?_cons_of_ne_nil _ hqne]; exact hp2
          | cons w ws =>
            rw [getLast?_cons_of_ne_nil _ (by simp)] at hp1
            refine ⟨piece, ?_, hp2⟩
            rw [hred, getLast?_cons_of_ne_nil _ (by simp)]
            exact hp1

theorem splitlinesL_ne_nil (l : List Char) (h : l ≠ []) : splitlinesL l ≠ [] :=
  splitlines1_ne_nil (normCrlf l) (normCrlf_ne_nil l h)

theorem splitlinesL_eq_nil_iff (l : List Char) : splitlinesL l = [] ↔ l = [] := by
  constructor
  · intro h
    by_contra hne
    exact splitlinesL_ne_nil l hne h
  · rintro rfl
    rfl

theorem splitlinesL_pieces_no_break
    (l : List Char) : ∀ p ∈ splitlinesL l, ∀ c ∈ p, isLineBreak c = false :=
  splitlines1_pieces_no_break (normCrlf l)

theorem splitlinesL_newline (r : List Char) :
    splitlinesL ('\n' :: r) = [] :: splitlinesL r := by
  unfold splitlinesL
  rw [normCrlf_cons_ne_cr r (by decide)]
  exact splitlines1_break _ (by decide)

theorem splitlinesL_head_cons {c : Char} (cs : List Char) (h : isLineBreak c = false) :
    ∃ t ps, splitlinesL (c :: cs) = (c :: t) :: ps := by
  unfold splitlinesL
  rw [normCrlf_cons_ne_cr cs (ne_cr_of_not_break h)]
  cases hs : splitlines1 (normCrlf cs) with
  | nil => exact ⟨[], [], splitlines1_not_break_nil _ h hs⟩
  | cons p ps => exact ⟨p, ps, splitlines1_not_break_cons _ p ps h hs⟩

theorem splitlinesL_append_newline
    (x r : List Char) (hx : ∀ c ∈ x, isLineBreak c = false) :
    splitlinesL (x ++ '\n' :: r) = x :: splitlinesL r := by
  unfold splitlinesL
  rw [normCrlf_append_newline x r hx]
  exact splitlines1_append_newline x (normCrlf r) hx

theorem splitlinesL_no_break_self
    (x : List Char) (hne : x ≠ []) (hx : ∀ c ∈ x, isLineBreak c = false) :
    splitlinesL x = [x] := by
  unfold splitlinesL
  rw [normCrlf_no_cr x (fun c hc => ne_cr_of_not_break (hx c hc))]
  exact splitlines1_no_break_self x hne hx

theorem splitlinesL_joinNL :
    ∀ L : List (List Char), L ≠ [] →
      (∀ p ∈ L, ∀ c ∈ p, isLineBreak c = false) →
      splitlinesL (joinNL L ++ ['\n']) = L := by
  intro L
  induction L with
  | nil => intro h _; exact absurd rfl h
  | cons x L' ih =>
    intro _ hL
    have hx : ∀ c ∈ x, isLineBreak c = false := hL x (List.mem_cons_self x L')
    cases L' with
    | nil =>
      have h1 : joinNL [x] ++ ['\n'] = x ++ '\n' :: [] := rfl
      rw [h1, splitlinesL_append_newline x [] hx]
      rfl
    | cons y L'' =>
      have hrec := ih (by simp) (fun p hp => hL p (List.mem_cons_of_mem x hp))
      have hassoc : joinNL (x :: y :: L'') ++ ['\n'] =
          x ++ '\n' :: (joinNL (y :: L'') ++ ['\n']) := by
        show (x ++ '\n' :: joinNL (y :: L'')) ++ ['\n'] = _
        simp
      rw [hassoc, splitlinesL_append_newline x _ hx, hrec]

theorem splitlinesL_joinNL_no_trailing :
    ∀ (L : List (List Char)) (z : List Char), L ≠ [] →
      (∀ p ∈ L, ∀ c ∈ p, isLineBreak c = false) →
      L.getLast? = some z → z ≠ [] →
      splitlinesL (joinNL L) = L := by
  intro L
  induction L with
  | nil => intro z h _ _ _; exact absurd rfl h
  | cons x L' ih =>
    intro z _ hL hlast hz
    have hx : ∀ c ∈ x, isLineBreak c = false := hL x (List.mem_cons_self x L')
    cases L' with
    | nil =>
      simp only [List.getLast?_singleton, Option.some.injEq] at hlast
      subst hlast
      exact splitlinesL_no_break_self x hz hx
    | cons y L'' =>
      have hrec := ih z (by simp) (fun p hp => hL p (List.mem_cons_of_mem x hp))
        (by rw [← hlast]; exact List.getLast?_cons_cons.symm) hz
      have hj : joinNL (x :: y :: L'') = x ++ '\n' :: joinNL (y :: L'') := rfl
      rw [hj, splitlinesL_append_newline x _ hx, hrec]

theorem splitlinesL_getLast
    (l : List Char) (d : Char) (hd : l.getLast? = some d)
    (hnb : isLineBreak d = false) :
    ∃ piece, (splitlinesL l).getLast? = some piece ∧ piece.getLast? = some d :=
  splitlines1_getLast (normCrlf l) d (normCrlf_getLast l d hd hnb) hnb

/-! ### Lemmas about `joinNL` and `cleanLinesL` -/

theorem getLast?_append_of_ne_nil {α : Type} :
    ∀ (l₁ l₂ : List α), l₂ ≠ [] → (l₁ ++ l₂).getLast? = l₂.getLast? := by
  intro l₁
  induction l₁ with
  | nil => intro l₂ _; rfl
  | cons a t ih =>
    intro l₂ h2
    rw [List.cons_append, getLast?_cons_of_ne_nil a (by simp [h2]), ih l₂ h2]

theorem joinNL_cons_head (p : List Char) (ps : List (List Char)) (c : Char)
    (t : List Char) (hp : p = c :: t) : (joinNL (p :: ps)).head? = some c := by
  subst hp
  cases ps with
  | nil => rfl
  | cons y ys => rfl

theorem joinNL_getLast :
    ∀ (L : List (List Char)) (z : List Char), L.getLast? = some z → z ≠ [] →
      (joinNL L).getLast? = z.getLast? := by
  intro L
  induction L with
  | nil => intro z hz _; simp at hz
  | cons x L' ih =>
    intro z hlast hz
    cases L' with
    | nil =>
      simp only [List.getLast?_singleton, Option.some.injEq] at hlast
      subst hlast
      rfl
    | cons y L'' =>
      rw [List.getLast?_cons_cons] at hlast
      have hrec := ih z hlast hz
      obtain ⟨d, hd⟩ := Option.isSome_iff_exists.mp (List.getLast?_isSome.mpr hz)
      have hw : joinNL (y :: L'') ≠ [] := by
        intro h0
        rw [h0] at hrec
        rw [hd] at hrec
        simp at hrec
      have hj : joinNL (x :: y :: L'') = x ++ '\n' :: joinNL (y :: L'') := rfl
      rw [hj, getLast?_append_of_ne_nil x _ (by simp),
        getLast?_cons_of_ne_nil '\n' hw, hrec]

theorem cleanLinesL_cons_blank_skip {ln : List Char} (rest : List (List Char))
    (h : rstripL ln = []) : cleanLinesL (ln :: rest) true = cleanLinesL rest true := by
  simp [cleanLinesL, h]

theorem cleanLinesL_cons_blank_emit {ln : List Char} (rest : List (List Char))
    (h : rstripL ln = []) :
    cleanLinesL (ln :: rest) false = [] :: cleanLinesL rest true := by
  simp [cleanLinesL, h]

theorem cleanLinesL_cons_text {ln : List Char} (rest : List (List Char)) (pb : Bool)
    (h : rstripL ln ≠ []) :
    cleanLinesL (ln :: rest) pb = rstripL ln :: cleanLinesL rest false := by
  simp [cleanLinesL, List.isEmpty_iff, h]

theorem cleanLinesL_rstrip_fixed :
    ∀ (L : List (List Char)) (pb : Bool), ∀ o ∈ cleanLinesL L pb, rstripL o = o := by
  intro L
  induction L with
  | nil => intro pb o ho; simp [cleanLinesL] at ho
  | cons ln rest ih =>
    intro pb o ho
    by_cases hb : rstripL ln = []
    · cases pb with
      | true =>
        rw [cleanLinesL_cons_blank_skip rest hb] at ho
        exact ih true o ho
      | false =>
        rw [cleanLinesL_cons_blank_emit rest hb] at ho
        rcases List.mem_cons.mp ho with rfl | ho
        · rfl
        · exact ih true o ho
    · rw [cleanLinesL_cons_text rest pb hb] at ho
      rcases List.mem_cons.mp ho with rfl | ho
      · exact rstripL_idem ln
      · exact ih false o ho

theorem cleanLinesL_chain :
    ∀ (L : List (List Char)) (pb : Bool),
      List.Chain' (fun a b => a ≠ [] ∨ b ≠ []) (cleanLinesL L pb) ∧
        (pb = true → (cleanLinesL L pb).head? ≠ some []) := by
  intro L
  induction L with
  | nil => intro pb; constructor <;> simp [cleanLinesL]
  | cons ln rest ih =>
    intro pb
    by_cases hb : rstripL ln = []
    · cases pb with
      | true =>
        rw [cleanLinesL_cons_blank_skip rest hb]
        exact ⟨(ih true).1, fun _ => (ih true).2 rfl⟩
      | false =>
        rw [cleanLinesL_cons_blank_emit rest hb]
        constructor
        · rw [List.chain'_cons']
          refine ⟨?_, (ih true).1⟩
          intro b hb'
          right
          intro hb0
          subst hb0
          exact (ih true).2 rfl (Option.mem_def.mp hb')
        · intro h
          cases h
    · rw [cleanLinesL_cons_text rest pb hb]
      constructor
      · rw [List.chain'_cons']
        exact ⟨fun b _ => Or.inl hb, (ih false).1⟩
      · intro _
        simp only [List.head?_cons, ne_eq, Option.some.injEq]
        exact hb

theorem cleanLinesL_ne_nil :
    ∀ (L : List (List Char)) (pb : Bool) (z : List Char),
      L.getLast? = some z → rstripL z ≠ [] → cleanLinesL L pb ≠ [] := by
  intro L
  induction L with
  | nil => intro pb z hz _; simp at hz
  | cons ln rest ih =>
    intro pb z hlast hz
    cases rest with
    | nil =>
      simp only [List.getLast?_singleton, Option.some.injEq] at hlast
      subst hlast
      rw [cleanLinesL_cons_text [] pb hz]
      simp
    | cons r rs =>
      rw [List.getLast?_cons_cons] at hlast
      by_cases hb : rstripL ln = []
      · cases pb with
        | true =>
          rw [cleanLinesL_cons_blank_skip _ hb]
          exact ih true z hlast hz
        | false =>
          rw [cleanLinesL_cons_blank_emit _ hb]
          simp
      · rw [cleanLinesL_cons_text _ pb hb]
        simp

theorem cleanLinesL_getLast_ne_nil :
    ∀ (L : List (List Char)) (pb : Bool) (z : List Char),
      L.getLast? = some z → rstripL z ≠ [] →
      ∀ o, (cleanLinesL L pb).getLast? = some o → o ≠ [] := by
  intro L
  induction L with
  | nil => intro pb z hz _ o ho; simp at hz
  | cons ln rest ih =>
    intro pb z hlast hz o ho
    cases rest with
    | nil =>
      simp only [List.getLast?_singleton, Option.some.injEq] at hlast
      subst hlast
      rw [cleanLinesL_cons_text [] pb hz] at ho
      simp only [cleanLinesL, List.getLast?_singleton, Option.some.injEq] at ho
      subst ho
      exact hz
    | cons r rs =>
      rw [List.getLast?_cons_cons] at hlast
      by_cases hb : rstripL ln = []
      · cases pb with
        | true =>
          rw [cleanLinesL_cons_blank_skip _ hb] at ho
          exact ih true z hlast hz o ho
        | false =>
          rw [cleanLinesL_cons_blank_emit _ hb] at ho
          have hne := cleanLinesL_ne_nil (r :: rs) true z hlast hz
          rw [getLast?_cons_of_ne_nil _ hne] at ho
          exact ih true z hlast hz o ho
      · rw [cleanLinesL_cons_text _ pb hb] at ho
        have hne := cleanLinesL_ne_nil (r :: rs) false z hlast hz
        rw [getLast?_cons_of_ne_nil _ hne] at ho
        exact ih false z hlast hz o ho

theorem cleanLinesL_fixpoint :
    ∀ (O : List (List Char)) (pb : Bool),
      (∀ o ∈ O, rstripL o = o) →
      List.Chain' (fun a b => a ≠ [] ∨ b ≠ []) O →
      (pb = true → O.head? ≠ some []) →
      cleanLinesL O pb = O := by
  intro O
  induction O with
  | nil => intro pb _ _ _; rfl
  | cons o os ih =>
    intro pb hfix hchain hhead
    have ho : rstripL o = o := hfix o (List.mem_cons_self o os)
    by_cases hoe : o = []
    · subst hoe
      cases pb with
      | true => exact absurd rfl (hhead rfl)
      | false =>
        rw [cleanLinesL_cons_blank_emit os ho]
        rw [ih true (fun o' ho' => hfix o' (List.mem_cons_of_mem [] ho'))
          (List.chain'_cons'.mp hchain).2 ?_]
        intro _ hh
        cases hos : os.head? with
        | none => rw [hos] at hh; cases hh
        | some b =>
          rw [hos] at hh
          rcases (List.chain'_cons'.mp hchain).1 b (by rw [hos]; rfl) with hbad | hbne
          · exact absurd rfl hbad
          · exact hbne (Option.some.injEq _ _ ▸ hh ▸ rfl)
    · have hne : rstripL o ≠ [] := by rw [ho]; exact hoe
      rw [cleanLinesL_cons_text os pb hne, ho]
      rw [ih false (fun o' ho' => hfix o' (List.mem_cons_of_mem o ho'))
        (List.chain'_cons'.mp hchain).2 (fun h => by cases h)]

theorem mem_cleanLinesL :
    ∀ (L : List (List Char)) (pb : Bool) (o : List Char),
      o ∈ cleanLinesL L pb → o = [] ∨ ∃ p ∈ L, o = rstripL p := by
  intro L
  induction L with
  | nil => intro pb o ho; simp [cleanLinesL] at ho
  | cons ln rest ih =>
    intro pb o ho
    by_cases hb : rstripL ln = []
    · cases pb with
      | true =>
        rw [cleanLinesL_cons_blank_skip rest hb] at ho
        rcases ih true o ho with h | ⟨p, hp, he⟩
        · exact Or.inl h
        · exact Or.inr ⟨p, List.mem_cons_of_mem ln hp, he⟩
      | false =>
        rw [cleanLinesL_cons_blank_emit rest hb] at ho
        rcases List.mem_cons.mp ho with rfl | ho
        · exact Or.inl rfl
        · rcases ih true o ho with h | ⟨p, hp, he⟩
          · exact Or.inl h
          · exact Or.inr ⟨p, List.mem_cons_of_mem ln hp, he⟩
    · rw [cleanLinesL_cons_text rest pb hb] at ho
      rcases List.mem_cons.mp ho with rfl | ho
      · exact Or.inr ⟨ln, List.mem_cons_self ln rest, rfl⟩
      · rcases ih false o ho with h | ⟨p, hp, he⟩
        · exact Or.inl h
        · exact Or.inr ⟨p, List.mem_cons_of_mem ln hp, he⟩

/-- Structure of `_clean_markdown`'s output when the stripped input is
non-empty: the cleaned line list `O` is non-empty, starts with a line whose
first character is not whitespace, ends with a non-blank line, contains no
break characters, and the final result is `joinNL O ++ ['\n']`. -/
theorem cleanMarkdownL_nonempty_spec (l : List Char) (hs : stripL l ≠ []) :
    ∃ (O : List (List Char)) (c d : Char) (w z : List Char),
      O = cleanLinesL (splitlinesL (stripL l)) true ∧
      O ≠ [] ∧
      O.head? = some (c :: w) ∧ isPySpace c = false ∧
      O.getLast? = some z ∧ z ≠ [] ∧
      (∀ o ∈ O, rstripL o = o) ∧
      (∀ p ∈ O, ∀ ch ∈ p, isLineBreak ch = false) ∧
      (joinNL O).getLast? = some d ∧ isPySpace d = false ∧
      cleanMarkdownL l = joinNL O ++ ['\n'] := by
  obtain ⟨c, t0, hcs, hc⟩ := stripL_head_not_space l hs
  have hcb : isLineBreak c = false := by
    cases hcb : isLineBreak c with
    | false => rfl
    | true => rw [isPySpace_of_isLineBreak hcb] at hc; cases hc
  obtain ⟨d0, hd0, hd0s⟩ := stripL_last_not_space l hs
  have hd0b : isLineBreak d0 = false := by
    cases hb : isLineBreak d0 with
    | false => rfl
    | true => rw [isPySpace_of_isLineBreak hb] at hd0s; cases hd0s
  obtain ⟨t1, ps, hP⟩ := splitlinesL_head_cons t0 hcb
  obtain ⟨lp, hlp, hlpd⟩ := splitlinesL_getLast (stripL l) d0 hd0 hd0b
  have hlpne : lp ≠ [] := by
    intro h0; rw [h0] at hlpd; simp at hlpd
  have hlpfix : rstripL lp = lp := rstripL_eq_self_of_last lp d0 hlpd hd0s
  have hlprs : rstripL lp ≠ [] := by rw [hlpfix]; exact hlpne
  have hrs1 : rstripL (c :: t1) ≠ [] := rstripL_cons_ne_nil_of_not_space t1 hc
  obtain ⟨t2, ht2⟩ := rstripL_cons_of_not_space t1 hc
  have hOdef : cleanLinesL (splitlinesL (stripL l)) true =
      rstripL (c :: t1) :: cleanLinesL ps false := by
    rw [hcs, hP]
    exact cleanLinesL_cons_text ps true hrs1
  refine ⟨cleanLinesL (splitlinesL (stripL l)) true, c, ?_⟩
  have hOne : cleanLinesL (splitlinesL (stripL l)) true ≠ [] := by
    rw [hOdef]; simp
  obtain ⟨z, hz⟩ := Option.isSome_iff_exists.mp
    (List.getLast?_isSome.mpr hOne)
  have hzne : z ≠ [] :=
    cleanLinesL_getLast_ne_nil (splitlinesL (stripL l)) true lp hlp hlprs z hz
  have hzfix : rstripL z = z :=
    cleanLinesL_rstrip_fixed (splitlinesL (stripL l)) true z
      (List.mem_of_mem_getLast? (by rw [hz]; rfl))
  obtain ⟨d, hd⟩ := Option.isSome_iff_exists.mp (List.getLast?_isSome.mpr hzne)
  have hds : isPySpace d = false := by
    have := rstripL_last_not_space z d (by rw [hzfix]; exact hd)
    exact this
  have hjlast : (joinNL (cleanLinesL (splitlinesL (stripL l)) true)).getLast? =
      some d := by
    rw [joinNL_getLast _ z hz hzne, hd]
  refine ⟨d, t2, z, rfl, hOne, ?_, hc, hz, hzne, ?_, ?_, hjlast, hds, ?_⟩
  · rw [hOdef, ht2]; rfl
  · exact cleanLinesL_rstrip_fixed (splitlinesL (stripL l)) true
  · intro p hp ch hch
    rcases mem_cleanLinesL (splitlinesL (stripL l)) true p hp with rfl | ⟨q, hq, rfl⟩
    · simp at hch
    · exact splitlinesL_pieces_no_break (stripL l) q hq ch (mem_rstripL q ch hch)
  · unfold cleanMarkdownL
    rw [if_neg]
    rw [hjlast]
    intro hcon
    injection hcon with hcon
    exact ne_newline_of_not_space hds hcon

/-- `_clean_markdown` is the identity on outputs of the shape produced by
`cleanMarkdownL_nonempty_spec`. -/
theorem cleanMarkdownL_fixed_form (O : List (List Char)) (c d : Char)
    (w z : List Char)
    (hne : O ≠ []) (hhead : O.head? = some (c :: w)) (hc : isPySpace c = false)
    (hlast : O.getLast? = some z) (hzne : z ≠ [])
    (hfix : ∀ o ∈ O, rstripL o = o)
    (hchain : List.Chain' (fun a b => a ≠ [] ∨ b ≠ []) O)
    (hbreak : ∀ p ∈ O, ∀ ch ∈ p, isLineBreak ch = false)
    (hjlast : (joinNL O).getLast? = some d) (hd : isPySpace d = false) :
    cleanMarkdownL (joinNL O ++ ['\n']) = joinNL O ++ ['\n'] := by
  have hjoin_head : (joinNL O).head? = some c := by
    cases O with
    | nil => exact absurd rfl hne
    | cons p ps =>
      simp only [List.head?_cons, Option.some.injEq] at hhead
      exact joinNL_cons_head p ps c w hhead
  have hlstrip : lstripL (joinNL O ++ ['\n']) = joinNL O ++ ['\n'] := by
    cases hj : joinNL O with
    | nil => rw [hj] at hjoin_head; cases hjoin_head
    | cons a as =>
      rw [hj] at hjoin_head
      simp only [List.head?_cons, Option.some.injEq] at hjoin_head
      subst hjoin_head
      unfold lstripL
      rw [List.cons_append, List.dropWhile_cons, if_neg (by simp [hc])]
  have hstrip : stripL (joinNL O ++ ['\n']) = joinNL O := by
    unfold stripL
    rw [hlstrip, rstripL_append_space _ '\n' isPySpace_newline]
    exact rstripL_eq_self_of_last _ d hjlast hd
  have hsplit : splitlinesL (joinNL O) = O :=
    splitlinesL_joinNL_no_trailing O z hne hbreak hlast hzne
  have hcl : cleanLinesL O true = O := by
    refine cleanLinesL_fixpoint O true hfix hchain ?_
    intro _
    rw [hhead]
    intro hcon
    injection hcon with hcon
    cases hcon
  unfold cleanMarkdownL
  rw [hstrip, hsplit, hcl, if_neg]
  rw [hjlast]
  intro hcon
  injection hcon with hcon
  exact ne_newline_of_not_space hd hcon

/-- C10: `_clean_markdown` is idempotent, its result ends with exactly one
trailing newline, and the result's lines carry no trailing whitespace and
contain no two consecutive blank lines. -/
theorem claim_C10_clean_markdown_idempotent (t : String) :
    cleanMarkdown (cleanMarkdown t) = cleanMarkdown t ∧
    (∃ l, (cleanMarkdown t).data = l ++ ['\n'] ∧ l.getLast? ≠ some '\n') ∧
    (∀ ln ∈ splitlinesL (cleanMarkdown t).data, rstripL ln = ln) ∧
    List.Chain' (fun a b => a ≠ [] ∨ b ≠ [])
      (splitlinesL (cleanMarkdown t).data) := by
  have hdata : ∀ s : String, (cleanMarkdown s).data = cleanMarkdownL s.data :=
    fun s => rfl
  by_cases hs : stripL t.data = []
  · have h1 : cleanMarkdownL t.data = ['\n'] := by
      unfold cleanMarkdownL
      rw [hs]
      rfl
    refine ⟨?_, ⟨[], ?_, by simp⟩, ?_, ?_⟩
    · show (⟨cleanMarkdownL (cleanMarkdown t).data⟩ : String) = ⟨cleanMarkdownL t.data⟩
      rw [hdata t, h1]
      rfl
    · rw [hdata t, h1]; rfl
    · rw [hdata t, h1]
      have hsl : splitlinesL ['\n'] = [[]] := by decide
      rw [hsl]
      intro ln hln
      rcases List.mem_singleton.mp hln with rfl
      rfl
    · rw [hdata t, h1]
      have hsl : splitlinesL ['\n'] = [[]] := by decide
      rw [hsl]
      exact List.chain'_singleton []
  · obtain ⟨O, c, d, w, z, hOdef, hOne, hOhead, hc, hOlast, hzne, hfix, hbreak,
      hjlast, hds, hres⟩ := cleanMarkdownL_nonempty_spec t.data hs
    have hchain : List.Chain' (fun a b => a ≠ [] ∨ b ≠ []) O := by
      rw [hOdef]
      exact (cleanLinesL_chain (splitlinesL (stripL t.data)) true).1
    have hfixed := cleanMarkdownL_fixed_form O c d w z hOne hOhead hc hOlast hzne
      hfix hchain hbreak hjlast hds
    have hsplitres : splitlinesL (cleanMarkdownL t.data) = O := by
      rw [hres]
      exact splitlinesL_joinNL O hOne hbreak
    refine ⟨?_, ⟨joinNL O, ?_, ?_⟩, ?_, ?_⟩
    · show (⟨cleanMarkdownL (cleanMarkdown t).data⟩ : String) = ⟨cleanMarkdownL t.data⟩
      rw [hdata t, hres, hfixed]
    · rw [hdata t, hres]
    · rw [hjlast]
      intro hcon
      injection hcon with hcon
      exact ne_newline_of_not_space hds hcon
    · rw [hdata t, hsplitres]
      exact hfix
    · rw [hdata t, hsplitres]
      exact hchain

end SigmaDoc
